import Mathlib

/-!
Shallow embedding of `generate_calendar.py` (estepona-agenda-calendar):
the line-stream parsing engine of `main` (the controlled second pass),
together with the pure helpers it calls.  Python strings are modelled as
`List Char` / `String`, Python `date`/`time`/`datetime` values as validated
numeral records and minute counts, and Python `ValueError` exceptions as
`Except PyErr`.
-/

namespace Estepona

/-- A raised Python exception (the code can only raise `ValueError` from
`date(...)` / `time(...)` constructors on the paths we model). -/
inductive PyErr
  | valueError
deriving DecidableEq, Repr

instance {ε α : Type} [DecidableEq ε] [DecidableEq α] : DecidableEq (Except ε α)
  | .error e, .error f =>
    if h : e = f then isTrue (by rw [h])
    else isFalse fun c => h (Except.error.inj c)
  | .error _, .ok _ => isFalse fun c => Except.noConfusion c
  | .ok _, .error _ => isFalse fun c => Except.noConfusion c
  | .ok a, .ok b =>
    if h : a = b then isTrue (by rw [h])
    else isFalse fun c => h (Except.ok.inj c)

/-- ASCII whitespace, modelling Python's `\s` class on the inputs in scope. -/
def isSp (c : Char) : Bool :=
  c == ' ' || c == '\t' || c.val == 10 || c.val == 13 || c.val == 11 || c.val == 12

/-- A word character for `\b` boundaries: Python's Unicode `\w` is modelled as
ASCII alphanumerics, underscore, and any non-ASCII code point. -/
def isWordC (c : Char) : Bool :=
  c.isAlphanum || c == '_' || 128 ≤ c.val

/-- The dash alternatives `[–-]` / `[-–]` used by the regexes. -/
def isDash (c : Char) : Bool :=
  c == '-' || c == '–'

/-- ASCII upper-casing, modelling Python `str.upper` on the ASCII range
(non-ASCII characters are left unchanged). -/
def upperC (c : Char) : Char := c.toUpper

def upperL (l : List Char) : List Char := l.map upperC

/-- Drop leading/trailing whitespace, modelling Python `str.strip()`. -/
def stripWs (l : List Char) : List Char :=
  ((l.dropWhile isSp).reverse.dropWhile isSp).reverse

/-- Collapse every run of spaces/tabs (`[ \t]+`) to a single space. -/
def collapseGo : Bool → List Char → List Char
  | _, [] => []
  | prev, c :: cs =>
    if c == ' ' || c == '\t' then
      if prev then collapseGo true cs else ' ' :: collapseGo true cs
    else c :: collapseGo false cs

/-- `_clean_spaces`: replace NBSP by space, collapse `[ \t]+`, strip. -/
def clean_spaces (l : List Char) : List Char :=
  stripWs (collapseGo false (l.map fun c => if c.val == 0xa0 then ' ' else c))

def cleanStr (s : String) : String := String.mk (clean_spaces s.data)

/-- `needle.isPrefixOf`-based substring test (Python's `in` on strings). -/
def containsSub (n : List Char) : List Char → Bool
  | [] => n.isEmpty
  | c :: cs => n.isPrefixOf (c :: cs) || containsSub n cs

def GARBAGE_PREFIXES : List (List Char) := ["Copyright ©".data]

/-- `_is_garbage_line`. -/
def is_garbage_line (l : List Char) : Bool :=
  let s := stripWs l
  s.isEmpty || GARBAGE_PREFIXES.any fun p => p.isPrefixOf s

def EXCLUDE_TITLE_KEYWORDS : List (List Char) := ["LOUIE LOUIE".data]

/-- `_contains_excluded_keyword`. -/
def contains_excluded_keyword (title : String) : Bool :=
  EXCLUDE_TITLE_KEYWORDS.any fun k => containsSub k (upperL title.data)

def SOURCE_DESC : String := "Fuente: turismo.estepona.es/agenda"

/-! ### Dates, times and instants -/

def isLeap (y : Nat) : Bool :=
  (y % 4 == 0 && y % 100 != 0) || y % 400 == 0

def daysInMonth (y m : Nat) : Nat :=
  if m == 2 then (if isLeap y then 29 else 28)
  else if m == 4 || m == 6 || m == 9 || m == 11 then 30
  else 31

/-- Validity of `datetime.date(y, m, d)` (raises `ValueError` otherwise). -/
def dateValid (y m d : Nat) : Bool :=
  1 ≤ y && y ≤ 9999 && 1 ≤ m && m ≤ 12 && 1 ≤ d && d ≤ daysInMonth y m

structure Date where
  y : Nat
  m : Nat
  d : Nat
deriving DecidableEq, Repr

/-- `datetime.date(y, m, d)`: raises `ValueError` on an invalid date. -/
def mkDate (y m d : Nat) : Except PyErr Date :=
  if dateValid y m d then .ok ⟨y, m, d⟩ else .error .valueError

/-- Days in months `1..m-1` of year `y`. -/
def cumMonthDays (y m : Nat) : Nat :=
  ((List.range (m - 1)).map fun i => daysInMonth y (i + 1)).sum

/-- Proleptic-Gregorian day number (day 0 = 0001-01-01), modelling
`date.toordinal()`-based ordering and `timedelta` day arithmetic. -/
def Date.toDays (dt : Date) : Nat :=
  365 * (dt.y - 1) + (dt.y - 1) / 4 + (dt.y - 1) / 400 - (dt.y - 1) / 100
    + cumMonthDays dt.y dt.m + (dt.d - 1)

/-- `datetime.time(h, mi)`: raises `ValueError` out of range; the value is the
minute-of-day count. -/
def mkTime (h mi : Nat) : Except PyErr Nat :=
  if h ≤ 23 && mi ≤ 59 then .ok (h * 60 + mi) else .error .valueError

/-- A local-timezone instant as minutes since day 0 at 00:00 (wall clock in
the fixed `Europe/Madrid` zone; `timedelta` adds wall-clock minutes/days). -/
def instOf (d : Date) (t : Nat) : Nat := d.toDays * 1440 + t

/-! ### Numeric-token scanning shared by the hand-compiled regexes -/

def takeDigits (cs : List Char) : List Char × List Char :=
  (cs.takeWhile Char.isDigit, cs.dropWhile Char.isDigit)

def digitsVal (l : List Char) : Nat :=
  l.foldl (fun acc c => 10 * acc + (c.val.toNat - 48)) 0

def skipSp (cs : List Char) : List Char := cs.dropWhile isSp

/-- `\s+`: at least one whitespace character, then skip the run. -/
def spaces1 (cs : List Char) : Option (List Char) :=
  match cs with
  | c :: rest => if isSp c then some (skipSp rest) else none
  | [] => none

/-- Case-insensitive literal match (ASCII), returning the rest on success. -/
def matchCI : List Char → List Char → Option (List Char)
  | [], cs => some cs
  | _ :: _, [] => none
  | p :: ps, c :: cs => if upperC p == upperC c then matchCI ps cs else none

/-- Two-digit `y < 100` pivot: `y += 2000`. -/
def finishY (y : Nat) : Nat := if y < 100 then y + 2000 else y

/-! ### `_parse_dmy`: `^(\d{1,2})/(\d{1,2})/(\d{2,4})$` then `date(...)` -/

/-- The anchored `d/m/y` regex.  A maximal digit run whose length must lie in
`[1,2]` (resp. `[2,4]` for the year, which must reach end of string) compiles
the greedy `\d{1,2}` / `\d{2,4}` with their fixed followers. -/
def dmyCore (cs : List Char) : Option (Nat × Nat × Nat) :=
  let (ds, r1) := takeDigits cs
  if 1 ≤ ds.length && ds.length ≤ 2 then
    match r1 with
    | c1 :: r2 =>
      if c1 = '/' then
        let (ms, r3) := takeDigits r2
        if 1 ≤ ms.length && ms.length ≤ 2 then
          match r3 with
          | c2 :: r4 =>
            if c2 = '/' then
              let (ys, r5) := takeDigits r4
              if r5.isEmpty && 2 ≤ ys.length && ys.length ≤ 4 then
                some (digitsVal ds, digitsVal ms, digitsVal ys)
              else none
            else none
          | [] => none
        else none
      else none
    | [] => none
  else none

/-- `_parse_dmy`: strip, regex, century pivot, `date(y, mo, d)` (may raise). -/
def parse_dmy (s : List Char) : Except PyErr (Option Date) :=
  match dmyCore (stripWs s) with
  | none => .ok none
  | some (d, mo, y) => (mkDate (finishY y) mo d).map some

/-! ### `_parse_date_set_header` -/

/-- Contiguous day-range header regex
`^(\d{1,2})\s*[–-]\s*(\d{1,2})\s*/\s*(\d{1,2})\s*/\s*(\d{2,4})$`. -/
def contigCore (cs : List Char) : Option (Nat × Nat × Nat × Nat) :=
  let (d1s, r1) := takeDigits cs
  if 1 ≤ d1s.length && d1s.length ≤ 2 then
    match skipSp r1 with
    | c :: r2 =>
      if isDash c then
        let (d2s, r3) := takeDigits (skipSp r2)
        if 1 ≤ d2s.length && d2s.length ≤ 2 then
          match skipSp r3 with
          | c1 :: r4 =>
            if c1 = '/' then
              let (ms, r5) := takeDigits (skipSp r4)
              if 1 ≤ ms.length && ms.length ≤ 2 then
                match skipSp r5 with
                | c2 :: r6 =>
                  if c2 = '/' then
                    let (ys, r7) := takeDigits (skipSp r6)
                    if r7.isEmpty && 2 ≤ ys.length && ys.length ≤ 4 then
                      some (digitsVal d1s, digitsVal d2s, digitsVal ms, digitsVal ys)
                    else none
                  else none
                | [] => none
              else none
            else none
          | [] => none
        else none
      else none
    | [] => none
  else none

/-- Tail matcher for the enumerated-list regex `^(.+?)\s*/\s*(\d{1,2})\s*/\s*(\d{2,4})$`:
does `cs` match `\s*/\s*(\d{1,2})\s*/\s*(\d{2,4})$`?  Returns `(month, year)`. -/
def multiTail (cs : List Char) : Option (Nat × Nat) :=
  match skipSp cs with
  | c1 :: r1 =>
    if c1 = '/' then
      let (ms, r2) := takeDigits (skipSp r1)
      if 1 ≤ ms.length && ms.length ≤ 2 then
        match skipSp r2 with
        | c2 :: r3 =>
          if c2 = '/' then
            let (ys, r4) := takeDigits (skipSp r3)
            if r4.isEmpty && 2 ≤ ys.length && ys.length ≤ 4 then
              some (digitsVal ms, digitsVal ys)
            else none
          else none
        | [] => none
      else none
    else none
  | [] => none

/-- Non-greedy `(.+?)` split: the shortest non-empty newline-free prefix whose
remainder matches `multiTail`.  Returns `(group 1, month, year)`. -/
def multiGo (acc : List Char) : List Char → Option (List Char × Nat × Nat)
  | [] => none
  | c :: cs =>
    if c == '\n' then none
    else
      match multiTail cs with
      | some (mo, y) => some (acc ++ [c], mo, y)
      | none => multiGo (acc ++ [c]) cs

def multiSplit (cs : List Char) : Option (List Char × Nat × Nat) :=
  multiGo [] cs

/-- One attempt of `(\d{1,2})\s*[-–]\s*(\d{1,2})` at the current position,
with the greedy first group backtracking from two digits to one.  Returns
`(a, b, rest-after-match)`. -/
def rangeAfterFirst (a : List Char) (rem : List Char) : Option (Nat × Nat × List Char) :=
  match skipSp rem with
  | c :: r1 =>
    if isDash c then
      let (bs, r2) := takeDigits (skipSp r1)
      if bs.isEmpty then none
      else some (digitsVal a, digitsVal (bs.take 2), bs.drop 2 ++ r2)
    else none
  | [] => none

def tryRangeAt (cs : List Char) : Option (Nat × Nat × List Char) :=
  let (run, rest) := takeDigits cs
  if run.isEmpty then none
  else if 2 ≤ run.length then
    (rangeAfterFirst (run.take 2) (run.drop 2 ++ rest)).orElse
      fun _ => rangeAfterFirst (run.take 1) (run.drop 1 ++ rest)
  else rangeAfterFirst run rest

/-- `re.findall(r"(\d{1,2})\s*[-–]\s*(\d{1,2})", left)`: scan left to right,
non-overlapping.  `fuel` bounds the recursion (callers pass the length). -/
def findRangesGo : Nat → List Char → List (Nat × Nat)
  | 0, _ => []
  | _, [] => []
  | fuel + 1, c :: cs =>
    match tryRangeAt (c :: cs) with
    | some (a, b, rest) => (a, b) :: findRangesGo fuel rest
    | none => findRangesGo fuel cs

def findRanges (cs : List Char) : List (Nat × Nat) :=
  findRangesGo cs.length cs

/-- `re.findall(r"\b(\d{1,2})\b", left)`: maximal digit runs of length ≤ 2
delimited by word boundaries.  `prevWord` tracks whether the previous
character is a word character. -/
def findNumsGo : Nat → Bool → List Char → List Nat
  | 0, _, _ => []
  | _, _, [] => []
  | fuel + 1, prevWord, c :: cs =>
    if c.isDigit && !prevWord then
      let run := (c :: cs).takeWhile Char.isDigit
      let rest := (c :: cs).dropWhile Char.isDigit
      let ok := run.length ≤ 2 &&
        (match rest with
         | [] => true
         | r :: _ => !isWordC r)
      (if ok then [digitsVal run] else []) ++ findNumsGo fuel true rest
    else findNumsGo fuel (isWordC c) cs

def findNums (cs : List Char) : List Nat :=
  findNumsGo cs.length false cs

/-- Ascending insertion (used to model Python's `sorted(set(...))`). -/
def insertAsc (n : Nat) : List Nat → List Nat
  | [] => [n]
  | m :: ms => if n ≤ m then n :: m :: ms else m :: insertAsc n ms

def sortAsc (l : List Nat) : List Nat := l.foldr insertAsc []

/-- `sorted(set(day_nums))`: distinct values in ascending order. -/
def sortedSet (l : List Nat) : List Nat := sortAsc l.dedup

/-- The day set named by the enumerated-list branch once the regex has split
off `left` and the month/year: ranges `a-b` expanded, individual `\b\d{1,2}\b`
numbers appended, deduplicated and sorted ascending, then each day turned
into a date with `date(...)`'s `ValueError` caught and the day dropped. -/
def enumBranch (left : List Char) (mo y : Nat) : Option (List Date) :=
  let fromRanges := (findRanges left).flatMap fun ab =>
    (List.range (max ab.1 ab.2 - min ab.1 ab.2 + 1)).map fun i => min ab.1 ab.2 + i
  let dayNums := sortedSet (fromRanges ++ findNums left)
  if dayNums.isEmpty then none
  else
    let out := dayNums.foldl
      (fun acc dn => if dateValid y mo dn then acc ++ [Date.mk y mo dn] else acc) []
    if out.isEmpty then none else some out

/-- `_parse_date_set_header`: bare date, contiguous day range, or enumerated
day list with a shared trailing `/m/y`.  The first two branches let the
`date(...)` `ValueError` escape; the enumerated branch catches it per day. -/
def parse_date_set_header (s : List Char) : Except PyErr (Option (List Date)) :=
  let l := stripWs s
  -- exact date
  match parse_dmy l with
  | .error e => .error e
  | .ok (some d) => .ok (some [d])
  | .ok none =>
  -- "15 – 19/12/25"-style contiguous range
  match contigCore l with
  | some (d1, d2, mo, y0) =>
    let y := finishY y0
    match mkDate y mo d1 with
    | .error e => .error e
    | .ok start =>
      match mkDate y mo d2 with
      | .error e => .error e
      | .ok stop =>
        if stop.toDays < start.toDays then .ok none
        else
          -- day-stepping from `start` to `stop` inside one month
          .ok (some ((List.range (d2 - d1 + 1)).map fun i => Date.mk y mo (d1 + i)))
  | none =>
  -- "19-20 & 21/12/25"-style enumerated list
  match multiSplit l with
  | some (left0, mo, y0) => .ok (enumBranch (stripWs left0) mo (finishY y0))
  | none => .ok none

/-! ### `_parse_until_or_range_header` -/

/-- `\d{1,2}/\d{1,2}/\d{2,4}` token inside the range-header regexes.  The
trailing year run is maximal with length in `[2,4]`; the caller checks the
follower (`\s+` or `\b`).  Returns the three numbers and the rest. -/
def dateTok (cs : List Char) : Option ((Nat × Nat × Nat) × List Char) :=
  let (ds, r1) := takeDigits cs
  if 1 ≤ ds.length && ds.length ≤ 2 then
    match r1 with
    | c1 :: r2 =>
      if c1 = '/' then
        let (ms, r3) := takeDigits r2
        if 1 ≤ ms.length && ms.length ≤ 2 then
          match r3 with
          | c2 :: r4 =>
            if c2 = '/' then
              let (ys, r5) := takeDigits r4
              if 2 ≤ ys.length && ys.length ≤ 4 then
                some ((digitsVal ds, digitsVal ms, digitsVal ys), r5)
              else none
            else none
          | [] => none
        else none
      else none
    | [] => none
  else none

/-- `\b` after a date token: end of string or a non-word character. -/
def boundaryOk (cs : List Char) : Bool :=
  match cs with
  | [] => true
  | c :: _ => !isWordC c

/-- Match `DEL\s+(d/m/y)\s+HASTA\s+(d/m/y)\b` (case-insensitive) at the
current position. -/
def matchDelAt (cs : List Char) : Option ((Nat × Nat × Nat) × (Nat × Nat × Nat)) := do
  let r1 ← matchCI "DEL".data cs
  let r2 ← spaces1 r1
  let (t1, r3) ← dateTok r2
  let r4 ← spaces1 r3
  let r5 ← matchCI "HASTA".data r4
  let r6 ← spaces1 r5
  let (t2, r7) ← dateTok r6
  if boundaryOk r7 then some (t1, t2) else none

/-- `re.search` scan for the `DEL ... HASTA ...` pattern: leftmost position
whose previous character is a non-word character (the `\b`). -/
def delSearchGo : Bool → List Char → Option ((Nat × Nat × Nat) × (Nat × Nat × Nat))
  | _, [] => none
  | prevWord, c :: cs =>
    match if prevWord then none else matchDelAt (c :: cs) with
    | some r => some r
    | none => delSearchGo (isWordC c) cs

/-- Match `HASTA(?:\s+EL)?\s+(d/m/y)\b` (case-insensitive) at the current
position, trying the optional `\s+EL` greedily first. -/
def matchHastaAt (cs : List Char) : Option (Nat × Nat × Nat) := do
  let r1 ← matchCI "HASTA".data cs
  let withEl : Option (Nat × Nat × Nat) := do
    let r2 ← spaces1 r1
    let r3 ← matchCI "EL".data r2
    let r4 ← spaces1 r3
    let (t, r5) ← dateTok r4
    if boundaryOk r5 then some t else none
  withEl.orElse fun _ => do
    let r2 ← spaces1 r1
    let (t, r3) ← dateTok r2
    if boundaryOk r3 then some t else none

def hastaSearchGo : Bool → List Char → Option (Nat × Nat × Nat)
  | _, [] => none
  | prevWord, c :: cs =>
    match if prevWord then none else matchHastaAt (c :: cs) with
    | some r => some r
    | none => hastaSearchGo (isWordC c) cs

/-- Turn a matched `d/m/y` group back into a date exactly as the code does by
re-running `_parse_dmy` on the captured text (century pivot plus `date(...)`,
which may raise). -/
def finishDMY (t : Nat × Nat × Nat) : Except PyErr Date :=
  mkDate (finishY t.2.2) t.2.1 t.1

/-- `_parse_until_or_range_header`.  The bare-`HASTA` branch uses
`date.today()`, threaded in as `today`. -/
def parse_until_or_range_header (today : Date) (s : List Char) :
    Except PyErr (Option (String × Date × Date)) :=
  let l := stripWs s
  match delSearchGo false l with
  | some (t1, t2) =>
    (match finishDMY t1 with
     | .error e => .error e
     | .ok d1 =>
       match finishDMY t2 with
       | .error e => .error e
       | .ok d2 => .ok (some ("range", d1, d2)))
  | none =>
  match hastaSearchGo false l with
  | some t =>
    (match finishDMY t with
     | .error e => .error e
     | .ok d2 => .ok (some ("until", today, d2)))
  | none => .ok none

/-! ### `_parse_time_and_title` -/

/-- `(\d{1,2}:\d{2})`: 1–2 digit hour (maximal run), colon, exactly two
digits.  Returns `(minutes-pair, rest)` as raw numbers (no range check). -/
def timeTok (cs : List Char) : Option ((Nat × Nat) × List Char) :=
  let (hs, r1) := takeDigits cs
  if 1 ≤ hs.length && hs.length ≤ 2 then
    match r1 with
    | c :: a :: b :: r2 =>
      if c = ':' && a.isDigit && b.isDigit then
        some ((digitsVal hs, digitsVal [a, b]), r2)
      else none
    | _ => none
  else none

/-- `\s+(?P<title>.+)$` after the time(s): at least one space, then a
non-empty newline-free remainder (the stripped input has no trailing
newline, so `$` is plain end-of-string). -/
def titleTail (cs : List Char) : Option (List Char) := do
  let r ← spaces1 cs
  if r.isEmpty || r.contains '\n' then none else some r

/-- The separator alternation `(?:[–-]|a|hasta)` (case-insensitive) with
regex backtracking: each alternative is tried with the whole continuation. -/
def sepThen (cs : List Char) (k : List Char → Option ((Nat × Nat) × List Char)) :
    Option ((Nat × Nat) × List Char) :=
  (match cs with
   | c :: r => if isDash c then k r else none
   | [] => none).orElse fun _ =>
  (match cs with
   | c :: r => if upperC c == 'A' then k r else none
   | [] => none).orElse fun _ =>
  (matchCI "hasta".data cs).bind k

/-- `_TIME_RANGE_RE` body after the start time:
`\s*(?:[–-]|a|hasta)\s*(\d{1,2}:\d{2})\s+(.+)$`. -/
def timeRangeRest (cs : List Char) : Option ((Nat × Nat) × List Char) :=
  sepThen (skipSp cs) fun r1 => do
    let (e, r2) ← timeTok (skipSp r1)
    let t ← titleTail r2
    some (e, t)

/-- `_parse_time_and_title`: the range regex first, then the single-time
regex; `time(h, m)` may raise on out-of-range values. -/
def parse_time_and_title (s : List Char) :
    Except PyErr (Option (Nat × Option Nat × String)) :=
  let l := stripWs s
  match timeTok l with
  | some ((sh, sm), r1) =>
    (match timeRangeRest r1 with
     | some ((eh, em), titleCs) =>
       (match mkTime sh sm with
        | .error e => .error e
        | .ok st =>
          match mkTime eh em with
          | .error e => .error e
          | .ok et => .ok (some (st, some et, String.mk (clean_spaces titleCs))))
     | none =>
       match titleTail r1 with
       | some titleCs =>
         (match mkTime sh sm with
          | .error e => .error e
          | .ok st => .ok (some (st, none, String.mk (clean_spaces titleCs))))
       | none => .ok none)
  | none => .ok none

/-! ### The `main` parsing loop (the controlled second pass) -/

/-- The dict `last_ctx` accumulating one candidate event. -/
structure Ctx where
  dates : List Date
  start : Nat
  end_ : Option Nat
  title : String
  location : Option String
  extra : List String
deriving DecidableEq, Repr

/-- `PendingRangeEvent` (`stop` is the inclusive `end` field; `end` is a
reserved word here). -/
structure PendingRangeEvent where
  kind : String
  start : Date
  stop : Date
  title : Option String
  details : List String
deriving DecidableEq, Repr

/-- An `ics` `Event` as populated by the code: `begin`/`end_` are
local-timezone instants in minutes (see `instOf`). -/
structure Event where
  name : String
  begin : Nat
  end_ : Nat
  location : Option String
  description : String
deriving DecidableEq, Repr

/-- The dedup key `(title, start.isoformat(), end.isoformat(), location or "")`;
within one run the isoformat strings are in bijection with the instants. -/
def evKey (title : String) (sd ed : Nat) (loc : Option String) :
    String × Nat × Nat × String :=
  (title, sd, ed, (loc.getD ""))

abbrev EvKey := String × Nat × Nat × String

/-- `"\n".join(...)`. -/
def joinNL (l : List String) : String :=
  String.intercalate "\n" l

/-- The description built by `add_event_ctx`:
`SOURCE_DESC + ("\n" + "\n".join([x for x in extra if x]) if extra else "")`. -/
def ctxDescription (extra : List String) : String :=
  if extra.isEmpty then SOURCE_DESC
  else SOURCE_DESC ++ "\n" ++ joinNL (extra.filter fun x => x ≠ "")

/-- One iteration of the `for d in ctx["dates"]` body of `add_event_ctx`. -/
def addEventDate (ctx : Ctx) (d : Date) : List EvKey × List Event → List EvKey × List Event :=
  fun (seen, events) =>
    let title := cleanStr ctx.title
    if title = "" || contains_excluded_keyword title then (seen, events)
    else
      let startDt := instOf d ctx.start
      let endDt :=
        match ctx.end_ with
        | none => startDt + 120
        | some et => if instOf d et ≤ startDt then instOf d et + 1440 else instOf d et
      let key := evKey title startDt endDt ctx.location
      if key ∈ seen then (seen, events)
      else
        (seen ++ [key],
         events ++ [{ name := title, begin := startDt, end_ := endDt,
                      location := match ctx.location with
                                  | some l => if l ≠ "" then some l else none
                                  | none => none,
                      description := ctxDescription ctx.extra }])

/-- `add_event_ctx` of `main`: materialize the context once per date, with
exclusion filtering and `seen`-set deduplication. -/
def addEventCtx (ctx : Ctx) (se : List EvKey × List Event) : List EvKey × List Event :=
  ctx.dates.foldl (fun acc d => addEventDate ctx d acc) se

/-- `flush_pending_range` of `main`: emit one all-day spanning event
(start 00:00 to midnight after the inclusive end date); no dedup check. -/
def flushPendingRangeFn (pr : Option PendingRangeEvent) (events : List Event) :
    Option PendingRangeEvent × List Event :=
  match pr with
  | none => (none, events)
  | some p =>
    match p.title with
    | none => (none, events)
    | some t =>
      let title := cleanStr t
      if title = "" || contains_excluded_keyword title then (none, events)
      else
        (none,
         events ++ [{ name := title,
                      begin := instOf p.start 0,
                      end_ := (p.stop.toDays + 1) * 1440,
                      location := none,
                      description := joinNL (SOURCE_DESC :: p.details.filter fun x => x ≠ "") }])

/-- The section-header vocabulary dropped by the loop. -/
def sectionHeaders : List String :=
  ["AGENDA", "DICIEMBRE", "ENERO", "BELENES", "SEMANALES", "EXPOSICIONES"]

/-- The location-keyword heuristic for plain lines after a timed title. -/
def locationKeywords : List String :=
  ["TEATRO", "PLAZA", "BIBLIOTECA", "CASA", "PALACIO", "POLIDEPORTIVO",
   "IGLESIA", "CALLE", "AVDA", "URBANIZACIÓN", "PUERTO", "CENTRO"]

def looksLikeLocation (line : String) : Bool :=
  locationKeywords.any fun k => containsSub k.data (upperL line.data)

/-- The mutable state of `main`'s loop. -/
structure MState where
  activeDates : List Date
  pending : Option PendingRangeEvent
  lastCtx : Option Ctx
  seen : List EvKey
  events : List Event
deriving DecidableEq, Repr

def initState : MState :=
  { activeDates := [], pending := none, lastCtx := none, seen := [], events := [] }

/-- Flush the open `last_ctx` (if any) through `add_event_ctx`. -/
def flushCtx (s : MState) : MState :=
  match s.lastCtx with
  | none => s
  | some c =>
    let (seen', evs') := addEventCtx c (s.seen, s.events)
    { s with lastCtx := none, seen := seen', events := evs' }

/-- One iteration of `main`'s `for raw in lines` loop. -/
def stepLine (today : Date) (s : MState) (raw : String) : Except PyErr MState :=
  let line := cleanStr raw
  if (line == "") || is_garbage_line line.data then .ok s
  else if sectionHeaders.contains (String.mk (upperL line.data)) then .ok s
  else
    match parse_date_set_header line.data with
    | .error e => .error e
    | .ok (some ds) =>
      -- date-set header: flush ctx, flush pending range, set active dates
      let s1 := flushCtx s
      let (_, evs2) := flushPendingRangeFn s1.pending s1.events
      .ok { s1 with pending := none, events := evs2, activeDates := ds }
    | .ok none =>
    match parse_until_or_range_header today line.data with
    | .error e => .error e
    | .ok (some (k, d1, d2)) =>
      let s1 := flushCtx s
      let (_, evs2) := flushPendingRangeFn s1.pending s1.events
      .ok { s1 with events := evs2,
                    pending := some ⟨k, d1, d2, none, []⟩,
                    activeDates := [] }
    | .ok none =>
    match s.pending with
    | some p =>
      match p.title with
      | none => .ok { s with pending := some { p with title := some line } }
      | some _ => .ok { s with pending := some { p with details := p.details ++ [line] } }
    | none =>
    match parse_time_and_title line.data with
    | .error e => .error e
    | .ok (some (st, et, title)) =>
      let s1 := flushCtx s
      if s1.activeDates.isEmpty then .ok { s1 with lastCtx := none }
      else .ok { s1 with lastCtx := some ⟨s1.activeDates, st, et, title, none, []⟩ }
    | .ok none =>
    match s.lastCtx with
    | some c =>
      if c.location = none && looksLikeLocation line then
        .ok { s with lastCtx := some { c with location := some line } }
      else
        .ok { s with lastCtx := some { c with extra := c.extra ++ [line] } }
    | none => .ok s

/-- The loop over all lines. -/
def runLines (today : Date) : MState → List String → Except PyErr MState
  | s, [] => .ok s
  | s, l :: ls =>
    match stepLine today s l with
    | .error e => .error e
    | .ok s' => runLines today s' ls

/-- Ordering used by `sorted(..., key=lambda ev: ev.begin)`. -/
def evLe (a b : Event) : Prop := a.begin ≤ b.begin

instance : DecidableRel evLe := fun a b => inferInstanceAs (Decidable (a.begin ≤ b.begin))

instance : IsTotal Event evLe := ⟨fun a b => Nat.le_total a.begin b.begin⟩

instance : IsTrans Event evLe := ⟨fun _ _ _ h h' => Nat.le_trans h h'⟩

/-- `main` minus the I/O: run the loop, do the final flushes, and return the
events sorted stably by `begin` (Python's `sorted` is a stable sort). -/
def runMain (today : Date) (lines : List String) : Except PyErr (List Event) :=
  match runLines today initState lines with
  | .error e => .error e
  | .ok s =>
    let s1 := flushCtx s
    let (_, evs2) := flushPendingRangeFn s1.pending s1.events
    .ok (List.insertionSort evLe evs2)

/-! ### Structural lemmas about the materializer -/

/-- The dedup key of a stored event (coincides with the key computed in
`add_event_ctx`, since a falsy location is stored as `none` and keyed `""`). -/
def keyOf (e : Event) : EvKey := (e.name, e.begin, e.end_, e.location.getD "")

/-- The end instant `add_event_ctx` computes for date `d`: 2-hour default, or
the parsed end time rolled forward a day when it does not exceed the start. -/
def endComputed (ctx : Ctx) (d : Date) : Nat :=
  match ctx.end_ with
  | none => instOf d ctx.start + 120
  | some et => if instOf d et ≤ instOf d ctx.start then instOf d et + 1440 else instOf d et

/-- What one `add_event_ctx` date iteration does: either nothing, or it
appends one event whose key is fresh, recording the key. -/
theorem addEventDate_spec (ctx : Ctx) (d : Date) (seen : List EvKey) (evs : List Event) :
    addEventDate ctx d (seen, evs) = (seen, evs) ∨
    ∃ e : Event,
      addEventDate ctx d (seen, evs) = (seen ++ [keyOf e], evs ++ [e]) ∧
      keyOf e ∉ seen ∧
      e.name = cleanStr ctx.title ∧
      cleanStr ctx.title ≠ "" ∧
      contains_excluded_keyword e.name = false ∧
      e.begin = instOf d ctx.start ∧
      e.end_ = endComputed ctx d := by
  have hkeyOf : ∀ (loc : Option String) (n : String) (b en : Nat) (desc : String),
      keyOf { name := n, begin := b, end_ := en,
              location := (match loc with
                           | some l => if l ≠ "" then some l else none
                           | none => none),
              description := desc } = evKey n b en loc := by
    intro loc n b en desc
    rcases loc with _ | l
    · rfl
    · by_cases hl : l = "" <;> simp [keyOf, evKey, hl]
  unfold addEventDate
  dsimp only
  split
  · left; rfl
  · rename_i hcond
    simp only [Bool.or_eq_true, decide_eq_true_eq, not_or, Bool.not_eq_true] at hcond
    split
    · left; rfl
    · rename_i hkey
      right
      refine ⟨{ name := cleanStr ctx.title, begin := instOf d ctx.start,
                end_ := endComputed ctx d,
                location := (match ctx.location with
                             | some l => if l ≠ "" then some l else none
                             | none => none),
                description := ctxDescription ctx.extra }, ?_, ?_, rfl, hcond.1, hcond.2, rfl, rfl⟩
      · rw [hkeyOf]; rfl
      · rw [hkeyOf]; exact hkey

/-- The whole `add_event_ctx` fold: the new events are appended after the old
ones, their keys are pairwise distinct and fresh with respect to `seen`, the
`seen` set is extended by exactly those keys, and each new event stems from
one of the context's dates with the computed instants, a non-empty cleaned
title and no excluded keyword. -/
theorem addEventFold_spec (ctx : Ctx) :
    ∀ (ds : List Date) (seen : List EvKey) (evs : List Event),
      ∃ tail : List Event,
        ds.foldl (fun acc d => addEventDate ctx d acc) (seen, evs) =
          (seen ++ tail.map keyOf, evs ++ tail) ∧
        (tail.map keyOf).Nodup ∧
        (∀ e ∈ tail, keyOf e ∉ seen) ∧
        (∀ e ∈ tail,
          e.name = cleanStr ctx.title ∧
          contains_excluded_keyword e.name = false ∧
          ∃ d ∈ ds, e.begin = instOf d ctx.start ∧ e.end_ = endComputed ctx d)
  | [], seen, evs => ⟨[], by simp⟩
  | d :: ds, seen, evs => by
    rcases addEventDate_spec ctx d seen evs with h | ⟨e, he, hk, hn, hne, hx, hb, hend⟩
    · obtain ⟨tail, h1, h2, h3, h4⟩ := addEventFold_spec ctx ds seen evs
      refine ⟨tail, ?_, h2, h3, ?_⟩
      · rw [List.foldl_cons, h, h1]
      · intro e' he'
        obtain ⟨hn', hx', d', hd', hbe⟩ := h4 e' he'
        exact ⟨hn', hx', d', List.mem_cons_of_mem _ hd', hbe⟩
    · obtain ⟨tail, h1, h2, h3, h4⟩ := addEventFold_spec ctx ds (seen ++ [keyOf e]) (evs ++ [e])
      refine ⟨e :: tail, ?_, ?_, ?_, ?_⟩
      · rw [List.foldl_cons, he, h1]
        simp
      · rw [List.map_cons, List.nodup_cons]
        refine ⟨?_, h2⟩
        intro hmem
        obtain ⟨e', he', hke⟩ := List.mem_map.mp hmem
        have := h3 e' he'
        rw [hke] at this
        exact this (by simp)
      · intro e' he'
        rcases List.mem_cons.mp he' with rfl | he''
        · exact hk
        · have := h3 e' he''
          intro hc
          exact this (List.mem_append_left _ hc)
      · intro e' he'
        rcases List.mem_cons.mp he' with rfl | he''
        · exact ⟨hn, hx, d, List.mem_cons_self _ _, hb, hend⟩
        · obtain ⟨hn', hx', d', hd', hbe⟩ := h4 e' he''
          exact ⟨hn', hx', d', List.mem_cons_of_mem _ hd', hbe⟩

/-- `addEventCtx` is the fold over the context's dates. -/
theorem addEventCtx_spec (ctx : Ctx) (seen : List EvKey) (evs : List Event) :
    ∃ tail : List Event,
      addEventCtx ctx (seen, evs) = (seen ++ tail.map keyOf, evs ++ tail) ∧
      (tail.map keyOf).Nodup ∧
      (∀ e ∈ tail, keyOf e ∉ seen) ∧
      (∀ e ∈ tail,
        e.name = cleanStr ctx.title ∧
        contains_excluded_keyword e.name = false ∧
        ∃ d ∈ ctx.dates, e.begin = instOf d ctx.start ∧ e.end_ = endComputed ctx d) :=
  addEventFold_spec ctx ctx.dates seen evs

/-- The (zero or one) events emitted by `flush_pending_range`, independent of
the event list and of the dedup `seen` set (which it never consults). -/
def rangeEventsOf (pr : Option PendingRangeEvent) : List Event :=
  match pr with
  | none => []
  | some p =>
    match p.title with
    | none => []
    | some t =>
      let title := cleanStr t
      if title = "" || contains_excluded_keyword title then []
      else
        [{ name := title,
           begin := instOf p.start 0,
           end_ := (p.stop.toDays + 1) * 1440,
           location := none,
           description := joinNL (SOURCE_DESC :: p.details.filter fun x => x ≠ "") }]

/-- `flush_pending_range` just appends `rangeEventsOf` — no dedup key check. -/
theorem flushPendingRangeFn_eq (pr : Option PendingRangeEvent) (evs : List Event) :
    flushPendingRangeFn pr evs = (none, evs ++ rangeEventsOf pr) := by
  unfold flushPendingRangeFn rangeEventsOf
  rcases pr with _ | ⟨k, st, sp, ti, de⟩
  · simp
  · rcases ti with _ | t
    · simp
    · dsimp only
      split <;> simp

/-- Facts about any event the range path emits. -/
theorem rangeEventsOf_facts (pr : Option PendingRangeEvent) (e : Event)
    (h : e ∈ rangeEventsOf pr) :
    contains_excluded_keyword e.name = false ∧
    ∃ p, pr = some p ∧ e.begin = instOf p.start 0 ∧ e.end_ = (p.stop.toDays + 1) * 1440 := by
  unfold rangeEventsOf at h
  rcases pr with _ | ⟨k, st, sp, ti, de⟩
  · simp at h
  · rcases ti with _ | t
    · simp at h
    · dsimp only at h
      rcases hc : (cleanStr t = "" || contains_excluded_keyword (cleanStr t) : Bool) with _ | _
      · rw [hc] at h
        simp only [Bool.false_eq_true, if_false, List.mem_singleton] at h
        subst h
        rcases Bool.or_eq_false_iff.mp hc with ⟨-, hc2⟩
        exact ⟨hc2, ⟨k, st, sp, some t, de⟩, rfl, rfl, rfl⟩
      · rw [hc] at h
        simp at h

/-- `time(h, mi)` values are valid minute counts below 1440. -/
theorem mkTime_le {a b v : Nat} (h : mkTime a b = .ok v) : v ≤ 1439 := by
  unfold mkTime at h
  split at h
  · rename_i hc
    simp only [Bool.and_eq_true, decide_eq_true_eq] at hc
    cases h
    omega
  · cases h

/-- Start times produced by `_parse_time_and_title` are valid clock times. -/
theorem parse_ttt_start_le (s : List Char) (st : Nat) (et : Option Nat) (ttl : String)
    (h : parse_time_and_title s = .ok (some (st, et, ttl))) : st ≤ 1439 := by
  unfold parse_time_and_title at h
  dsimp only at h
  rcases h1 : timeTok (stripWs s) with _ | ⟨⟨sh, sm⟩, r1⟩ <;>
    rw [h1] at h <;> dsimp only at h
  · simp at h
  · rcases h2 : timeRangeRest r1 with _ | ⟨⟨eh, em⟩, titleCs⟩ <;>
      rw [h2] at h <;> dsimp only at h
    · rcases h3 : titleTail r1 with _ | titleCs <;> rw [h3] at h <;> dsimp only at h
      · simp at h
      · rcases h4 : mkTime sh sm with e | v <;> rw [h4] at h <;> dsimp only at h
        · simp at h
        · simp only [Except.ok.injEq, Option.some.injEq, Prod.mk.injEq] at h
          obtain ⟨hst, -, -⟩ := h
          exact hst ▸ mkTime_le h4
    · rcases h4 : mkTime sh sm with e | v <;> rw [h4] at h <;> dsimp only at h
      · simp at h
      · rcases h5 : mkTime eh em with e' | w <;> rw [h5] at h <;> dsimp only at h
        · simp at h
        · simp only [Except.ok.injEq, Option.some.injEq, Prod.mk.injEq] at h
          obtain ⟨hst, -, -⟩ := h
          exact hst ▸ mkTime_le h4

/-- The output ordering the specification claims: ascending by start instant
with ties broken by title (lexicographic code-point order, like Python string
comparison), then by end instant. -/
def specLe (a b : Event) : Prop :=
  a.begin < b.begin ∨
    (a.begin = b.begin ∧
      (a.name.data < b.name.data ∨ (a.name = b.name ∧ a.end_ ≤ b.end_)))

instance : DecidableRel specLe := fun a b => by
  unfold specLe; infer_instance

/-- An arbitrary reference date for `date.today()` in runs that contain no
bare `HASTA` header (the value is then never consulted). -/
def someToday : Date := ⟨2026, 1, 1⟩

/-! ### Theorems about the claims -/

/-- **C1.** On `["DEL 18/12/25 HASTA 12/01/26", "BELÉN MUNICIPAL",
"Horario: 10:00-20:00"]` the code does NOT classify the first line as a range
header: `main` tests `_parse_date_set_header` first, and its enumerated-list
regex matches the `DEL ... HASTA ...` line (splitting at the last `/m/y`),
yielding the date set {12, 18, 25 Jan 2026}; the two following lines then
match nothing, so the run emits zero events instead of the claimed single
spanning event. -/
theorem c1_scenarioB_emits_no_events :
    parse_date_set_header "DEL 18/12/25 HASTA 12/01/26".data =
      .ok (some [⟨2026, 1, 12⟩, ⟨2026, 1, 18⟩, ⟨2026, 1, 25⟩]) ∧
    runMain someToday
        ["DEL 18/12/25 HASTA 12/01/26", "BELÉN MUNICIPAL", "Horario: 10:00-20:00"] =
      .ok [] := by
  constructor <;> rfl

/-- **C2.** Classification is not total: a bare date line with an invalid
calendar day makes `_parse_dmy` raise `ValueError` out of `date(...)`, and a
timed line with out-of-range hour/minute makes `_parse_time_and_title` raise
out of `time(...)`; in both cases the whole run aborts instead of treating
the line as non-matching.  (Only the enumerated-list branch catches the
error, correctly dropping just the invalid day.) -/
theorem c2_invalid_fragments_raise :
    runMain someToday ["31/11/25"] = .error .valueError ∧
    runMain someToday ["25:99 TITLE"] = .error .valueError ∧
    parse_date_set_header "31 & 1/11/25".data = .ok (some [⟨2025, 11, 1⟩]) := by
  refine ⟨?_, ?_, ?_⟩ <;> rfl

/-- **C7.** Scenario C: `["16/12/25", "12:00 – 10:00 TALLER NOCTURNO"]`
produces exactly one event whose end is rolled forward to the next day:
start 2025-12-16T12:00, end 2025-12-17T10:00. -/
theorem c7_midnight_crossing_rolls_end :
    runMain someToday ["16/12/25", "12:00 – 10:00 TALLER NOCTURNO"] =
      .ok [{ name := "TALLER NOCTURNO",
             begin := instOf ⟨2025, 12, 16⟩ (12 * 60),
             end_ := instOf ⟨2025, 12, 17⟩ (10 * 60),
             location := none,
             description := SOURCE_DESC }] := by
  rfl

/-- **C8.** Scenario A: `["16/12/25", "18:00 CONCIERTO DE NAVIDAD",
"Plaza de las Flores"]` produces exactly one event with the 2-hour default
end and the location picked up by the heuristic. -/
theorem c8_scenarioA_default_duration_and_location :
    runMain someToday ["16/12/25", "18:00 CONCIERTO DE NAVIDAD", "Plaza de las Flores"] =
      .ok [{ name := "CONCIERTO DE NAVIDAD",
             begin := instOf ⟨2025, 12, 16⟩ (18 * 60),
             end_ := instOf ⟨2025, 12, 16⟩ (20 * 60),
             location := some "Plaza de las Flores",
             description := SOURCE_DESC }] := by
  rfl

/-- **C4 counterexample.** A `DEL <d1> HASTA <d2>` header with the end date
one day before the start date (and a trailing token so the enumerated-list
regex does not capture the line first) is accepted unchecked; the emitted
spanning event runs from start 00:00 to (end+1 day) 00:00 = start 00:00, so
its end is NOT strictly after its start. -/
theorem c4_reversed_range_end_not_after_start :
    runMain someToday ["DEL 2/1/26 HASTA 1/1/26 x", "RANGO INVERTIDO"] =
      .ok [{ name := "RANGO INVERTIDO",
             begin := instOf ⟨2026, 1, 2⟩ 0,
             end_ := instOf ⟨2026, 1, 2⟩ 0,
             location := none,
             description := SOURCE_DESC }] ∧
    ¬ instOf ⟨2026, 1, 2⟩ 0 < instOf ⟨2026, 1, 2⟩ 0 :=
  ⟨rfl, Nat.lt_irrefl _⟩

/-- No event in the list has a denylisted keyword in its title. -/
def noExcluded (evs : List Event) : Prop :=
  ∀ e ∈ evs, contains_excluded_keyword e.name = false

theorem flushCtx_noExcluded (s : MState) (h : noExcluded s.events) :
    noExcluded (flushCtx s).events := by
  unfold flushCtx
  rcases hc : s.lastCtx with _ | c
  · exact h
  · obtain ⟨tail, heq, -, -, hfacts⟩ := addEventCtx_spec c (s.seen) (s.events)
    dsimp only
    intro e he
    rw [heq] at he
    dsimp only at he
    rcases List.mem_append.mp he with hl | hr
    · exact h e hl
    · exact (hfacts e hr).2.1

theorem flushPR_noExcluded (pr : Option PendingRangeEvent) (evs : List Event)
    (h : noExcluded evs) : noExcluded (flushPendingRangeFn pr evs).2 := by
  rw [flushPendingRangeFn_eq]
  intro e he
  rcases List.mem_append.mp he with hl | hr
  · exact h e hl
  · exact (rangeEventsOf_facts pr e hr).1

theorem stepLine_noExcluded (today : Date) (s : MState) (raw : String) (s' : MState)
    (h : noExcluded s.events) (hs : stepLine today s raw = .ok s') :
    noExcluded s'.events := by
  have hflush : noExcluded (flushCtx s).events := flushCtx_noExcluded s h
  have hflush2 :
      noExcluded (flushPendingRangeFn (flushCtx s).pending (flushCtx s).events).2 :=
    flushPR_noExcluded _ _ hflush
  unfold stepLine at hs
  dsimp only at hs
  split at hs
  · cases hs; exact h
  · split at hs
    · cases hs; exact h
    · split at hs
      · cases hs
      · cases hs; exact hflush2
      · split at hs
        · cases hs
        · cases hs; exact hflush2
        · split at hs
          · split at hs
            · cases hs; exact h
            · cases hs; exact h
          · split at hs
            · cases hs
            · split at hs
              · cases hs; exact hflush
              · cases hs; exact hflush
            · split at hs
              · split at hs
                · cases hs; exact h
                · cases hs; exact h
              · cases hs; exact h

theorem runLines_noExcluded (today : Date) :
    ∀ (lines : List String) (s s' : MState),
      noExcluded s.events → runLines today s lines = .ok s' → noExcluded s'.events
  | [], s, s', h, hr => by
    unfold runLines at hr
    cases hr
    exact h
  | l :: ls, s, s', h, hr => by
    unfold runLines at hr
    rcases hstep : stepLine today s l with e | s1 <;> rw [hstep] at hr <;> dsimp only at hr
    · cases hr
    · exact runLines_noExcluded today ls s1 s'
        (stepLine_noExcluded today s l s1 h hstep) hr

/-- **C9.** No event whose title contains a denylisted keyword (in any casing,
via the upper-cased substring check) ever appears in a run's output, whether
it was produced by the per-date path or the range path. -/
theorem c9_excluded_keyword_never_in_output (today : Date) (lines : List String)
    (res : List Event) (h : runMain today lines = .ok res) :
    ∀ e ∈ res, contains_excluded_keyword e.name = false := by
  unfold runMain at h
  rcases hr : runLines today initState lines with er | s <;> rw [hr] at h <;> dsimp only at h
  · cases h
  · have hgood : noExcluded s.events :=
      runLines_noExcluded today lines initState s (by intro e he; cases he) hr
    have h1 :
        noExcluded (flushPendingRangeFn (flushCtx s).pending (flushCtx s).events).2 :=
      flushPR_noExcluded _ _ (flushCtx_noExcluded s hgood)
    cases h
    intro e he
    exact h1 e (((List.perm_insertionSort evLe _).mem_iff).mp he)

/-- Witness for C9: a run containing a `LOUIE LOUIE` timed-title line outputs
only the other event, whose title passes the exclusion check. -/
theorem c9_excluded_keyword_never_in_output_witness :
    runMain someToday ["16/12/25", "18:00 GRAN GALA", "19:00 LOUIE LOUIE TRIBUTO"] =
        .ok [{ name := "GRAN GALA",
               begin := instOf ⟨2025, 12, 16⟩ 1080,
               end_ := instOf ⟨2025, 12, 16⟩ 1200,
               location := none,
               description := SOURCE_DESC }] ∧
      contains_excluded_keyword "GRAN GALA" = false :=
  ⟨rfl,
    c9_excluded_keyword_never_in_output someToday
      ["16/12/25", "18:00 GRAN GALA", "19:00 LOUIE LOUIE TRIBUTO"]
      [{ name := "GRAN GALA",
         begin := instOf ⟨2025, 12, 16⟩ 1080,
         end_ := instOf ⟨2025, 12, 16⟩ 1200,
         location := none,
         description := SOURCE_DESC }] rfl
      { name := "GRAN GALA",
        begin := instOf ⟨2025, 12, 16⟩ 1080,
        end_ := instOf ⟨2025, 12, 16⟩ 1200,
        location := none,
        description := SOURCE_DESC }
      (List.mem_singleton.mpr rfl)⟩

/-- **C3.** From `EVENT_COLLECTING` (an open `last_ctx`) a further timed-title
line first materializes the current context through `add_event_ctx` — in this
very step, not at end-of-input — and then opens a fresh context on the same
active date list. -/
theorem c3_timed_title_flushes_current_ctx
    (today : Date) (s : MState) (raw : String) (c : Ctx)
    (st : Nat) (et : Option Nat) (ttl : String)
    (h1 : (cleanStr raw == "") = false)
    (h2 : is_garbage_line (cleanStr raw).data = false)
    (h3 : sectionHeaders.contains (String.mk (upperL (cleanStr raw).data)) = false)
    (h4 : parse_date_set_header (cleanStr raw).data = .ok none)
    (h5 : parse_until_or_range_header today (cleanStr raw).data = .ok none)
    (h6 : s.pending = none)
    (h7 : parse_time_and_title (cleanStr raw).data = .ok (some (st, et, ttl)))
    (h8 : s.lastCtx = some c)
    (h9 : s.activeDates ≠ []) :
    stepLine today s raw =
      .ok { activeDates := s.activeDates,
            pending := none,
            lastCtx := some ⟨s.activeDates, st, et, ttl, none, []⟩,
            seen := (addEventCtx c (s.seen, s.events)).1,
            events := (addEventCtx c (s.seen, s.events)).2 } := by
  unfold stepLine
  dsimp only
  rw [h1, h2, h3, h4, h5, h6, h7]
  dsimp only
  unfold flushCtx
  rw [h8]
  dsimp only
  have h9' : s.activeDates.isEmpty = false := by
    simp [List.isEmpty_iff, h9]
  simp [h9', h6]

/-- Witness for C3: a concrete state with an open context; the step on a new
timed-title line emits the pending CONCIERTO event at once and opens the new
context. -/
theorem c3_timed_title_flushes_current_ctx_witness :
    parse_time_and_title (cleanStr "19:00 OTRA FUNCION").data =
        .ok (some (1140, none, "OTRA FUNCION")) ∧
    stepLine someToday
        { activeDates := [⟨2025, 12, 16⟩],
          pending := none,
          lastCtx := some ⟨[⟨2025, 12, 16⟩], 1080, none, "CONCIERTO", none, []⟩,
          seen := [],
          events := [] }
        "19:00 OTRA FUNCION" =
      .ok { activeDates := [⟨2025, 12, 16⟩],
            pending := none,
            lastCtx := some ⟨[⟨2025, 12, 16⟩], 1140, none, "OTRA FUNCION", none, []⟩,
            seen := (addEventCtx ⟨[⟨2025, 12, 16⟩], 1080, none, "CONCIERTO", none, []⟩
                      ([], [])).1,
            events := (addEventCtx ⟨[⟨2025, 12, 16⟩], 1080, none, "CONCIERTO", none, []⟩
                      ([], [])).2 } :=
  ⟨rfl,
    c3_timed_title_flushes_current_ctx someToday
      { activeDates := [⟨2025, 12, 16⟩],
        pending := none,
        lastCtx := some ⟨[⟨2025, 12, 16⟩], 1080, none, "CONCIERTO", none, []⟩,
        seen := [],
        events := [] }
      "19:00 OTRA FUNCION"
      ⟨[⟨2025, 12, 16⟩], 1080, none, "CONCIERTO", none, []⟩
      1140 none "OTRA FUNCION"
      rfl rfl rfl rfl rfl rfl rfl rfl (by decide)⟩

/-- **C4 amended.** Start times parsed by `_parse_time_and_title` are valid
clock times; every event materialized by `add_event_ctx` from a context whose
start time is a valid clock time has its end strictly after its start; an
event materialized by `flush_pending_range` has its end strictly after its
start exactly when the parsed inclusive end date is on or after the start
date — so a reversed range header emits an event violating end > start. -/
theorem c4_amended_end_after_start :
    (∀ (s : List Char) (st : Nat) (et : Option Nat) (ttl : String),
        parse_time_and_title s = .ok (some (st, et, ttl)) → st ≤ 1439) ∧
    (∀ (ctx : Ctx) (seen : List EvKey) (evs : List Event) (e : Event),
        ctx.start ≤ 1439 →
        e ∈ (addEventCtx ctx (seen, evs)).2 → e ∈ evs ∨ e.begin < e.end_) ∧
    (∀ (p : PendingRangeEvent) (evs : List Event) (e : Event),
        e ∈ (flushPendingRangeFn (some p) evs).2 →
        e ∈ evs ∨ (e.begin < e.end_ ↔ p.start.toDays ≤ p.stop.toDays)) := by
  refine ⟨parse_ttt_start_le, ?_, ?_⟩
  · intro ctx seen evs e hst hmem
    obtain ⟨tail, heq, -, -, hfacts⟩ := addEventCtx_spec ctx seen evs
    rw [heq] at hmem
    rcases List.mem_append.mp hmem with hl | hr
    · exact Or.inl hl
    · right
      obtain ⟨-, -, d, -, hb, hend⟩ := hfacts e hr
      rw [hb, hend]
      unfold endComputed
      rcases ctx.end_ with _ | et
      · dsimp only; unfold instOf; omega
      · dsimp only; unfold instOf; split <;> omega
  · intro p evs e hmem
    rw [flushPendingRangeFn_eq] at hmem
    rcases List.mem_append.mp hmem with hl | hr
    · exact Or.inl hl
    · right
      obtain ⟨-, p', hp', hb, hend⟩ := rangeEventsOf_facts _ e hr
      cases hp'
      rw [hb, hend]
      unfold instOf
      omega

/-- Witness for C4 amended: the per-date event of Scenario C satisfies
end > start, and the reversed-range event of the C4 counterexample input has
end ≤ start because its end date precedes its start date. -/
theorem c4_amended_end_after_start_witness :
    (parse_time_and_title "18:00 GALA".data = .ok (some (1080, none, "GALA")) ∧
      1080 ≤ 1439) ∧
    ({ name := "GALA", begin := instOf ⟨2025, 12, 16⟩ 1080,
       end_ := instOf ⟨2025, 12, 16⟩ 1200, location := none,
       description := SOURCE_DESC } ∈ ([] : List Event) ∨
      instOf ⟨2025, 12, 16⟩ (1080 : Nat) < instOf ⟨2025, 12, 16⟩ 1200) ∧
    ({ name := "RANGO INVERTIDO", begin := instOf ⟨2026, 1, 2⟩ 0,
       end_ := instOf ⟨2025, 12, 19⟩ 0, location := none,
       description := SOURCE_DESC } ∈ ([] : List Event) ∨
      (instOf ⟨2026, 1, 2⟩ (0 : Nat) < instOf ⟨2025, 12, 19⟩ 0 ↔
        Date.toDays ⟨2026, 1, 2⟩ ≤ Date.toDays ⟨2025, 12, 18⟩)) := by
  refine ⟨⟨rfl, c4_amended_end_after_start.1 "18:00 GALA".data 1080 none "GALA" rfl⟩, ?_, ?_⟩
  · have h := c4_amended_end_after_start.2.1
      ⟨[⟨2025, 12, 16⟩], 1080, none, "GALA", none, []⟩ [] []
      { name := "GALA", begin := instOf ⟨2025, 12, 16⟩ 1080,
        end_ := instOf ⟨2025, 12, 16⟩ 1200, location := none,
        description := SOURCE_DESC }
      (by decide) (by decide)
    rcases h with h | h
    · exact Or.inl h
    · exact Or.inr h
  · have h := c4_amended_end_after_start.2.2
      ⟨"range", ⟨2026, 1, 2⟩, ⟨2025, 12, 18⟩, some "RANGO INVERTIDO", []⟩ []
      { name := "RANGO INVERTIDO", begin := instOf ⟨2026, 1, 2⟩ 0,
        end_ := instOf ⟨2025, 12, 19⟩ 0, location := none,
        description := SOURCE_DESC }
      (by decide)
    rcases h with h | h
    · exact Or.inl h
    · exact Or.inr h

/-- **C5 amended.** Deduplication as implemented: among the events one
`add_event_ctx` call appends, every key is fresh with respect to the `seen`
set and no key repeats (the first date producing a key wins, later ones are
dropped), and each appended key is recorded; `flush_pending_range`, by
contrast, appends its event unconditionally — it never consults `seen`, so
identical range events are all emitted. -/
theorem c5_amended_dedup_per_date_only :
    (∀ (ctx : Ctx) (seen : List EvKey) (evs : List Event),
        ((((addEventCtx ctx (seen, evs)).2.drop evs.length).map keyOf).Nodup ∧
          ∀ e ∈ (addEventCtx ctx (seen, evs)).2.drop evs.length,
            keyOf e ∉ seen ∧ keyOf e ∈ (addEventCtx ctx (seen, evs)).1)) ∧
    (∀ (pr : Option PendingRangeEvent) (evs : List Event),
        flushPendingRangeFn pr evs = (none, evs ++ rangeEventsOf pr)) := by
  refine ⟨?_, flushPendingRangeFn_eq⟩
  intro ctx seen evs
  obtain ⟨tail, heq, hnd, hfresh, -⟩ := addEventCtx_spec ctx seen evs
  rw [heq]
  simp only [List.drop_left]
  refine ⟨hnd, ?_⟩
  intro e he
  exact ⟨hfresh e he, List.mem_append_right _ (List.mem_map_of_mem keyOf he)⟩

/-- Witness for C5 amended: a context listing the same date twice materializes
the event only once (the duplicate key is dropped), and a concrete range
flush appends its event with no key check. -/
theorem c5_amended_dedup_per_date_only_witness :
    (keyOf { name := "X", begin := instOf ⟨2025, 12, 16⟩ 720,
             end_ := instOf ⟨2025, 12, 16⟩ 840, location := none,
             description := SOURCE_DESC } ∉ ([] : List EvKey) ∧
      keyOf { name := "X", begin := instOf ⟨2025, 12, 16⟩ 720,
              end_ := instOf ⟨2025, 12, 16⟩ 840, location := none,
              description := SOURCE_DESC } ∈
        (addEventCtx ⟨[⟨2025, 12, 16⟩, ⟨2025, 12, 16⟩], 720, none, "X", none, []⟩
          ([], [])).1) ∧
    flushPendingRangeFn
        (some ⟨"range", ⟨2026, 1, 1⟩, ⟨2026, 1, 2⟩, some "FERIA", []⟩) [] =
      (none, [] ++ rangeEventsOf
        (some ⟨"range", ⟨2026, 1, 1⟩, ⟨2026, 1, 2⟩, some "FERIA", []⟩)) :=
  ⟨(c5_amended_dedup_per_date_only.1
      ⟨[⟨2025, 12, 16⟩, ⟨2025, 12, 16⟩], 720, none, "X", none, []⟩ [] []).2
      { name := "X", begin := instOf ⟨2025, 12, 16⟩ 720,
        end_ := instOf ⟨2025, 12, 16⟩ 840, location := none,
        description := SOURCE_DESC } (by decide),
   c5_amended_dedup_per_date_only.2
     (some ⟨"range", ⟨2026, 1, 1⟩, ⟨2026, 1, 2⟩, some "FERIA", []⟩) []⟩

/-- **C5 counterexample.** Two identical range blocks: `flush_pending_range`
never consults the `seen` set, so both occurrences of an event with an
identical key (title, start, end, location-or-empty) appear in the output —
the later one is not dropped. -/
theorem c5_range_path_duplicate_not_dropped :
    runMain someToday
        ["DEL 1/1/26 HASTA 2/1/26 x", "FERIA",
         "DEL 1/1/26 HASTA 2/1/26 x", "FERIA"] =
      .ok [{ name := "FERIA",
             begin := instOf ⟨2026, 1, 1⟩ 0,
             end_ := instOf ⟨2026, 1, 3⟩ 0,
             location := none,
             description := SOURCE_DESC },
           { name := "FERIA",
             begin := instOf ⟨2026, 1, 1⟩ 0,
             end_ := instOf ⟨2026, 1, 3⟩ 0,
             location := none,
             description := SOURCE_DESC }] := by
  rfl

/-- **C6 counterexample.** Two events with equal start instants keep their
pre-sort order (`sorted` is stable and keyed on `begin` only): with titles
`"B"` before `"A"` the output is not sorted by the claimed
(start, title, end) ordering. -/
theorem c6_ties_not_broken_by_title :
    runMain someToday ["16/12/25", "10:00 B", "10:00 - 13:00 A"] =
      .ok [{ name := "B",
             begin := instOf ⟨2025, 12, 16⟩ (10 * 60),
             end_ := instOf ⟨2025, 12, 16⟩ (12 * 60),
             location := none,
             description := SOURCE_DESC },
           { name := "A",
             begin := instOf ⟨2025, 12, 16⟩ (10 * 60),
             end_ := instOf ⟨2025, 12, 16⟩ (13 * 60),
             location := none,
             description := SOURCE_DESC }] ∧
    ¬ List.Sorted specLe
        [{ name := "B",
           begin := instOf ⟨2025, 12, 16⟩ (10 * 60),
           end_ := instOf ⟨2025, 12, 16⟩ (12 * 60),
           location := none,
           description := SOURCE_DESC },
         { name := "A",
           begin := instOf ⟨2025, 12, 16⟩ (10 * 60),
           end_ := instOf ⟨2025, 12, 16⟩ (13 * 60),
           location := none,
           description := SOURCE_DESC }] := by
  refine ⟨by rfl, ?_⟩
  intro h
  rcases List.sorted_cons.mp h with ⟨hrel, -⟩
  have := hrel _ (List.mem_singleton.mpr rfl)
  rcases this with h1 | ⟨-, h2 | ⟨h3, -⟩⟩
  · exact Nat.lt_irrefl _ h1
  · revert h2; decide
  · revert h3; decide

/-- **C6 amended.** The returned sequence is sorted ascending by start
instant (`begin`) — and only by that key. -/
theorem c6_amended_sorted_by_begin (today : Date) (lines : List String)
    (res : List Event) (h : runMain today lines = .ok res) :
    res.Sorted evLe := by
  unfold runMain at h
  rcases hr : runLines today initState lines with e | s
  · rw [hr] at h; cases h
  · rw [hr] at h
    simp only [Except.ok.injEq] at h
    subst h
    exact List.sorted_insertionSort evLe _

/-- Witness for C6 amended at a concrete input. -/
theorem c6_amended_sorted_by_begin_witness :
    runMain someToday ["16/12/25", "10:00 B", "10:00 - 13:00 A"] =
        .ok [{ name := "B",
               begin := instOf ⟨2025, 12, 16⟩ (10 * 60),
               end_ := instOf ⟨2025, 12, 16⟩ (12 * 60),
               location := none,
               description := SOURCE_DESC },
             { name := "A",
               begin := instOf ⟨2025, 12, 16⟩ (10 * 60),
               end_ := instOf ⟨2025, 12, 16⟩ (13 * 60),
               location := none,
               description := SOURCE_DESC }] ∧
      List.Sorted evLe
        [{ name := "B",
           begin := instOf ⟨2025, 12, 16⟩ (10 * 60),
           end_ := instOf ⟨2025, 12, 16⟩ (12 * 60),
           location := none,
           description := SOURCE_DESC },
         { name := "A",
           begin := instOf ⟨2025, 12, 16⟩ (10 * 60),
           end_ := instOf ⟨2025, 12, 16⟩ (13 * 60),
           location := none,
           description := SOURCE_DESC }] :=
  ⟨rfl, c6_amended_sorted_by_begin someToday ["16/12/25", "10:00 B", "10:00 - 13:00 A"] _ rfl⟩

/-! ### C10: enumerated `"D1 & D2/M/Y"` headers, symbolically -/

/-- The decimal digit character for `n` (as Python's `str` renders digits);
values above nine are clamped so that the character facts hold uniformly. -/
def digitChar : Nat → Char
  | 0 => '0'
  | 1 => '1'
  | 2 => '2'
  | 3 => '3'
  | 4 => '4'
  | 5 => '5'
  | 6 => '6'
  | 7 => '7'
  | 8 => '8'
  | _ => '9'

/-- Python's `str(n)` for `n ≤ 99`: one digit below ten, two digits above. -/
def render2 (n : Nat) : List Char :=
  if n < 10 then [digitChar n] else [digitChar (n / 10), digitChar (n % 10)]

@[simp] theorem isDigit_digitChar (a : Nat) : (digitChar a).isDigit = true := by
  rcases a with _ | _ | _ | _ | _ | _ | _ | _ | _ | a <;> rfl

@[simp] theorem isSp_digitChar (a : Nat) : isSp (digitChar a) = false := by
  rcases a with _ | _ | _ | _ | _ | _ | _ | _ | _ | a <;> rfl

@[simp] theorem isDash_digitChar (a : Nat) : isDash (digitChar a) = false := by
  rcases a with _ | _ | _ | _ | _ | _ | _ | _ | _ | a <;> rfl

@[simp] theorem isWordC_digitChar (a : Nat) : isWordC (digitChar a) = true := by
  rcases a with _ | _ | _ | _ | _ | _ | _ | _ | _ | a <;> rfl

@[simp] theorem digitChar_ne_slash (a : Nat) : (digitChar a = '/') = False := by
  rcases a with _ | _ | _ | _ | _ | _ | _ | _ | _ | a <;> simp [digitChar]

@[simp] theorem digitChar_ne_nl (a : Nat) : (digitChar a == '\n') = false := by
  rcases a with _ | _ | _ | _ | _ | _ | _ | _ | _ | a <;> rfl

theorem val_digitChar (a : Nat) (h : a ≤ 9) : (digitChar a).val.toNat = 48 + a := by
  rcases a with _ | _ | _ | _ | _ | _ | _ | _ | _ | a
  · rfl
  · rfl
  · rfl
  · rfl
  · rfl
  · rfl
  · rfl
  · rfl
  · rfl
  · have : a = 0 := by omega
    subst this
    rfl

theorem digitsVal_one (a : Nat) (h : a ≤ 9) : digitsVal [digitChar a] = a := by
  unfold digitsVal
  simp [List.foldl, val_digitChar a h]

theorem digitsVal_two (a b : Nat) (ha : a ≤ 9) (hb : b ≤ 9) :
    digitsVal [digitChar a, digitChar b] = 10 * a + b := by
  unfold digitsVal
  simp only [List.foldl, val_digitChar a ha, val_digitChar b hb]
  omega

theorem digitsVal_render2 (n : Nat) (h : n ≤ 99) : digitsVal (render2 n) = n := by
  unfold render2
  split
  · exact digitsVal_one n (by omega)
  · rw [digitsVal_two (n / 10) (n % 10) (by omega) (by omega)]
    omega

theorem render2_all_digit (n : Nat) : ∀ c ∈ render2 n, c.isDigit = true := by
  unfold render2
  split <;> intro c hc <;> simp at hc
  · subst hc; simp
  · rcases hc with rfl | rfl <;> simp

theorem render2_length (n : Nat) : 1 ≤ (render2 n).length ∧ (render2 n).length ≤ 2 := by
  unfold render2
  split <;> simp

theorem render2_length_two (n : Nat) (h : 10 ≤ n) : (render2 n).length = 2 := by
  unfold render2
  rw [if_neg (by omega)]
  rfl

/-- A headline fact used everywhere: `render2` always starts with a digit
character (in fact every character is one). -/
theorem render2_shape (n : Nat) :
    render2 n = [digitChar n] ∨ render2 n = [digitChar (n / 10), digitChar (n % 10)] := by
  unfold render2
  split
  · exact Or.inl rfl
  · exact Or.inr rfl

/-- The header string of the claim's form `"D1 & D2/M/Y"`. -/
def enumHeader (d1 d2 mo y : Nat) : List Char :=
  render2 d1 ++ (' ' :: '&' :: ' ' :: []) ++ render2 d2 ++ ('/' :: []) ++
    render2 mo ++ ('/' :: []) ++ render2 y

/-- What the specification says the enumerated header must produce: the days
`{D1, D2}` deduplicated and ascending, each combined with month `M` and year
`2000 + Y`, days invalid for that month silently dropped (no date set at all
when nothing remains). -/
def specEnumExpected (d1 d2 mo y : Nat) : Option (List Date) :=
  let ds := ((sortedSet [d1, d2]).filter fun dn => dateValid (y + 2000) mo dn).map
    fun dn => Date.mk (y + 2000) mo dn
  if ds.isEmpty then none else some ds

def headNotDigit : List Char → Prop
  | [] => True
  | c :: _ => c.isDigit = false

/-- A maximal digit run followed by a non-digit splits off exactly. -/
theorem takeDigits_append : ∀ (ds rest : List Char), (∀ c ∈ ds, c.isDigit = true) →
    headNotDigit rest → takeDigits (ds ++ rest) = (ds, rest)
  | [], rest, _, hr => by
    cases rest with
    | nil => rfl
    | cons c t =>
      unfold headNotDigit at hr
      simp [takeDigits, List.takeWhile_cons, List.dropWhile_cons, hr]
  | d :: ds, rest, hd, hr => by
    have h1 := hd d (List.mem_cons_self d ds)
    have IH := takeDigits_append ds rest (fun c hc => hd c (List.mem_cons_of_mem d hc)) hr
    unfold takeDigits at IH ⊢
    simp only [Prod.mk.injEq] at IH
    simp [List.cons_append, List.takeWhile_cons, List.dropWhile_cons, h1, IH.1, IH.2]

theorem skipSp_of_head (c : Char) (u : List Char) (h : isSp c = false) :
    skipSp (c :: u) = c :: u := by
  unfold skipSp
  rw [List.dropWhile_cons, h]
  rfl

/-- `multiTail` fails on anything whose first non-space character is not `/`
(as long as one exists). -/
theorem multiTail_append_none : ∀ (xs tail : List Char), xs ≠ [] →
    (∀ c ∈ xs, c ≠ '/') →
    (∀ c, xs.getLast? = some c → isSp c = false) →
    multiTail (xs ++ tail) = none
  | [c], tail, _, hs, hl => by
    have hc : isSp c = false := hl c rfl
    have hslash : c ≠ '/' := hs c (List.mem_singleton.mpr rfl)
    unfold multiTail
    rw [List.cons_append, List.nil_append, skipSp_of_head c tail hc]
    simp [hslash]
  | c :: x :: xs, tail, _, hs, hl => by
    rcases hsp : isSp c with _ | _
    · have hslash : c ≠ '/' := hs c (List.mem_cons_self _ _)
      unfold multiTail
      rw [List.cons_append, skipSp_of_head c _ hsp]
      simp [hslash]
    · have hstep : multiTail ((c :: x :: xs) ++ tail) = multiTail ((x :: xs) ++ tail) := by
        unfold multiTail skipSp
        rw [List.cons_append, List.dropWhile_cons, hsp]
        rfl
      rw [hstep]
      exact multiTail_append_none (x :: xs) tail (by simp)
        (fun c' hc' => hs c' (List.mem_cons_of_mem _ hc'))
        (fun c' hc' => hl c' (by rwa [List.getLast?_cons_cons]))

theorem multiGo_last (acc : List Char) (c : Char) (cs : List Char) (mo y : Nat)
    (hc : (c == '\n') = false) (hsome : multiTail cs = some (mo, y)) :
    multiGo acc (c :: cs) = some (acc ++ [c], mo, y) := by
  simp [multiGo, hc, hsome]

theorem multiGo_step (acc : List Char) (c : Char) (cs : List Char)
    (hc : (c == '\n') = false) (hnone : multiTail cs = none) :
    multiGo acc (c :: cs) = multiGo (acc ++ [c]) cs := by
  simp [multiGo, hc, hnone]

/-- `(.+?)` semantics over a `'/'`-free, newline-free prefix whose last
character is not a space: the minimal split lands exactly after it. -/
theorem multiGo_through : ∀ (xs acc tail : List Char) (mo y : Nat),
    xs ≠ [] →
    (∀ c ∈ xs, c ≠ '/' ∧ c ≠ '\n') →
    (∀ c, xs.getLast? = some c → isSp c = false) →
    multiTail tail = some (mo, y) →
    multiGo acc (xs ++ tail) = some (acc ++ xs, mo, y)
  | [c], acc, tail, mo, y, _, hchars, _, htail => by
    rw [List.cons_append, List.nil_append]
    exact multiGo_last acc c tail mo y
      (by simpa using (hchars c (List.mem_singleton.mpr rfl)).2) htail
  | c :: x :: xs, acc, tail, mo, y, _, hchars, hlast, htail => by
    have hnone : multiTail ((x :: xs) ++ tail) = none :=
      multiTail_append_none (x :: xs) tail (by simp)
        (fun c' hc' => (hchars c' (List.mem_cons_of_mem _ hc')).1)
        (fun c' hc' => hlast c' (by rwa [List.getLast?_cons_cons]))
    have hstep := multiGo_step acc c ((x :: xs) ++ tail)
      (by simpa using (hchars c (List.mem_cons_self _ _)).2) hnone
    have hrec := multiGo_through (x :: xs) (acc ++ [c]) tail mo y (by simp)
      (fun c' hc' => hchars c' (List.mem_cons_of_mem _ hc'))
      (fun c' hc' => hlast c' (by rwa [List.getLast?_cons_cons])) htail
    rw [List.cons_append, hstep, hrec]
    simp

theorem skipSp_render2 (n : Nat) (rest : List Char) :
    skipSp (render2 n ++ rest) = render2 n ++ rest := by
  rcases render2_shape n with h | h <;> rw [h] <;>
    exact skipSp_of_head _ _ (isSp_digitChar _)

theorem takeDigits_render2 (n : Nat) (rest : List Char) (hr : headNotDigit rest) :
    takeDigits (render2 n ++ rest) = (render2 n, rest) :=
  takeDigits_append (render2 n) rest (render2_all_digit n) hr

/-- The tail regex `\s*/\s*(\d{1,2})\s*/\s*(\d{2,4})$` succeeds on
`/M/Y` with a 1–2-digit month and a two-digit year. -/
theorem multiTail_slash (mo y : Nat) (hm : mo ≤ 99) (hy1 : 10 ≤ y) (hy2 : y ≤ 99) :
    multiTail ('/' :: (render2 mo ++ ('/' :: render2 y))) = some (mo, y) := by
  have hlen : (decide (1 ≤ (render2 mo).length) && decide ((render2 mo).length ≤ 2)) = true := by
    have h := render2_length mo
    simp only [Bool.and_eq_true, decide_eq_true_eq]
    omega
  have hylen : (render2 y).length = 2 := render2_length_two y hy1
  have htdm : takeDigits (render2 mo ++ ('/' :: render2 y)) = (render2 mo, '/' :: render2 y) :=
    takeDigits_render2 mo _ (by unfold headNotDigit; rfl)
  have htdy : takeDigits (render2 y) = (render2 y, []) := by
    have := takeDigits_append (render2 y) [] (render2_all_digit y) trivial
    simpa using this
  have hskipy : skipSp (render2 y) = render2 y := by
    have := skipSp_render2 y []
    simpa using this
  unfold multiTail
  rw [skipSp_of_head '/' _ rfl]
  dsimp only
  rw [if_pos rfl, skipSp_render2 mo ('/' :: render2 y), htdm]
  dsimp only
  rw [hlen, if_pos rfl]
  rw [skipSp_of_head '/' _ rfl]
  dsimp only
  rw [if_pos rfl, hskipy, htdy]
  dsimp only
  have hok : (([] : List Char).isEmpty && decide (2 ≤ (render2 y).length) &&
      decide ((render2 y).length ≤ 4)) = true := by
    simp only [List.isEmpty_nil, Bool.true_and, Bool.and_eq_true, decide_eq_true_eq]
    omega
  rw [hok, if_pos rfl]
  rw [digitsVal_render2 mo hm, digitsVal_render2 y (by omega)]

/-- The enumerated-header left part. -/
def enumLeft (d1 d2 : Nat) : List Char :=
  render2 d1 ++ (' ' :: '&' :: ' ' :: []) ++ render2 d2

theorem enumLeft_chars (d1 d2 : Nat) : ∀ c ∈ enumLeft d1 d2, c ≠ '/' ∧ c ≠ '\n' := by
  intro c hc
  unfold enumLeft at hc
  simp only [List.append_assoc, List.mem_append, List.cons_append, List.nil_append,
    List.mem_cons] at hc
  rcases hc with h | h | h | h | h
  · have := render2_all_digit d1 c h
    rcases render2_shape d1 with hs | hs <;> rw [hs] at h <;> simp at h
    · subst h; exact ⟨fun hc => by simp at hc, ne_of_beq_false (digitChar_ne_nl _)⟩
    · rcases h with rfl | rfl <;>
        exact ⟨fun hc => by simp at hc, ne_of_beq_false (digitChar_ne_nl _)⟩
  · subst h; exact ⟨by decide, by decide⟩
  · subst h; exact ⟨by decide, by decide⟩
  · subst h; exact ⟨by decide, by decide⟩
  · rcases render2_shape d2 with hs | hs <;> rw [hs] at h <;> simp at h
    · subst h; exact ⟨fun hc => by simp at hc, ne_of_beq_false (digitChar_ne_nl _)⟩
    · rcases h with rfl | rfl <;>
        exact ⟨fun hc => by simp at hc, ne_of_beq_false (digitChar_ne_nl _)⟩

theorem render2_getLast? (n : Nat) :
    ∃ a, (render2 n).getLast? = some (digitChar a) := by
  rcases render2_shape n with h | h <;> rw [h]
  · exact ⟨n, rfl⟩
  · exact ⟨n % 10, rfl⟩

theorem enumLeft_getLast (d1 d2 : Nat) :
    ∀ c, (enumLeft d1 d2).getLast? = some c → isSp c = false := by
  intro c hc
  unfold enumLeft at hc
  obtain ⟨a, ha⟩ := render2_getLast? d2
  have hne : render2 d2 ≠ [] := by
    rcases render2_shape d2 with h | h <;> simp [h]
  rw [List.getLast?_append_of_ne_nil _ hne, ha] at hc
  cases hc
  exact isSp_digitChar a

theorem enumLeft_ne_nil (d1 d2 : Nat) : enumLeft d1 d2 ≠ [] := by
  unfold enumLeft
  rcases render2_shape d1 with h | h <;> simp [h]

/-- The non-greedy split of the enumerated header: the left group is exactly
`D1 & D2`, the captured month and year are `M` and `Y`. -/
theorem multiSplit_enum (d1 d2 mo y : Nat) (hm : mo ≤ 99) (hy1 : 10 ≤ y) (hy2 : y ≤ 99) :
    multiSplit (enumHeader d1 d2 mo y) = some (enumLeft d1 d2, mo, y) := by
  have hshape : enumHeader d1 d2 mo y =
      enumLeft d1 d2 ++ ('/' :: (render2 mo ++ ('/' :: render2 y))) := by
    unfold enumHeader enumLeft
    simp [List.append_assoc]
  unfold multiSplit
  rw [hshape]
  have := multiGo_through (enumLeft d1 d2) [] ('/' :: (render2 mo ++ ('/' :: render2 y)))
    mo y (enumLeft_ne_nil d1 d2) (enumLeft_chars d1 d2) (enumLeft_getLast d1 d2)
    (multiTail_slash mo y hm hy1 hy2)
  rw [this]
  simp

/-- `strip()` is the identity on a string with non-space ends. -/
theorem stripWs_of_ends (l : List Char)
    (hh : ∀ c, l.head? = some c → isSp c = false)
    (hl : ∀ c, l.getLast? = some c → isSp c = false) : stripWs l = l := by
  unfold stripWs
  have h1 : l.dropWhile isSp = l := by
    cases l with
    | nil => rfl
    | cons c t =>
      have := skipSp_of_head c t (hh c rfl)
      unfold skipSp at this
      exact this
  rw [h1]
  have h2 : l.reverse.dropWhile isSp = l.reverse := by
    rcases hr : l.reverse with _ | ⟨c, t⟩
    · rfl
    · have hc : l.getLast? = some c := by
        rw [← List.head?_reverse, hr]
        rfl
      have := skipSp_of_head c t (hl c hc)
      unfold skipSp at this
      exact this
  rw [h2, List.reverse_reverse]

/-- Associativity-normalized shape of the header. -/
theorem enumHeader_shape (d1 d2 mo y : Nat) :
    enumHeader d1 d2 mo y =
      render2 d1 ++ (' ' :: '&' :: ' ' ::
        (render2 d2 ++ ('/' :: (render2 mo ++ ('/' :: render2 y))))) := by
  unfold enumHeader
  simp [List.append_assoc]

theorem enumHeader_head (d1 d2 mo y : Nat) :
    ∀ c, (enumHeader d1 d2 mo y).head? = some c → isSp c = false := by
  intro c hc
  rw [enumHeader_shape] at hc
  rcases render2_shape d1 with h | h <;> rw [h] at hc <;>
    simp only [List.cons_append, List.head?_cons, Option.some.injEq] at hc <;>
    rw [← hc] <;> exact isSp_digitChar _

theorem enumHeader_last (d1 d2 mo y : Nat) :
    ∀ c, (enumHeader d1 d2 mo y).getLast? = some c → isSp c = false := by
  intro c hc
  unfold enumHeader at hc
  obtain ⟨a, ha⟩ := render2_getLast? y
  have hne : render2 y ≠ [] := by
    rcases render2_shape y with h | h <;> simp [h]
  rw [List.getLast?_append_of_ne_nil _ hne, ha] at hc
  cases hc
  exact isSp_digitChar a

theorem stripWs_enumHeader (d1 d2 mo y : Nat) :
    stripWs (enumHeader d1 d2 mo y) = enumHeader d1 d2 mo y :=
  stripWs_of_ends _ (enumHeader_head d1 d2 mo y) (enumHeader_last d1 d2 mo y)

theorem enumLeft_head (d1 d2 : Nat) :
    ∀ c, (enumLeft d1 d2).head? = some c → isSp c = false := by
  intro c hc
  unfold enumLeft at hc
  rcases render2_shape d1 with h | h <;> rw [h] at hc <;>
    simp only [List.append_assoc, List.cons_append, List.head?_cons,
      Option.some.injEq] at hc <;>
    rw [← hc] <;> exact isSp_digitChar _

theorem stripWs_enumLeft (d1 d2 : Nat) :
    stripWs (enumLeft d1 d2) = enumLeft d1 d2 :=
  stripWs_of_ends _ (enumLeft_head d1 d2) (enumLeft_getLast d1 d2)

theorem render2_len_cond (n : Nat) :
    (decide (1 ≤ (render2 n).length) && decide ((render2 n).length ≤ 2)) = true := by
  have := render2_length n
  simp only [Bool.and_eq_true, decide_eq_true_eq]
  omega

/-- The bare-date regex rejects the enumerated header (a space follows the
first digit run, not a `/`). -/
theorem dmyCore_enum (d1 d2 mo y : Nat) : dmyCore (enumHeader d1 d2 mo y) = none := by
  unfold dmyCore
  rw [enumHeader_shape,
    takeDigits_render2 d1 _ (by unfold headNotDigit; rfl)]
  dsimp only
  rw [render2_len_cond d1, if_pos rfl]
  simp

/-- The contiguous-range regex rejects the enumerated header (`&`, not a
dash, follows the first digit run). -/
theorem contigCore_enum (d1 d2 mo y : Nat) : contigCore (enumHeader d1 d2 mo y) = none := by
  unfold contigCore
  rw [enumHeader_shape,
    takeDigits_render2 d1 _ (by unfold headNotDigit; rfl)]
  dsimp only
  rw [render2_len_cond d1, if_pos rfl]
  have hskip : skipSp (' ' :: '&' ::  ' ' ::
      (render2 d2 ++ ('/' :: (render2 mo ++ ('/' :: render2 y))))) =
      '&' :: ' ' :: (render2 d2 ++ ('/' :: (render2 mo ++ ('/' :: render2 y)))) := rfl
  rw [hskip]
  simp [isDash]

theorem parse_dmy_enum (d1 d2 mo y : Nat) :
    parse_dmy (enumHeader d1 d2 mo y) = .ok none := by
  unfold parse_dmy
  rw [stripWs_enumHeader, dmyCore_enum]

@[simp] theorem isWordC_space : isWordC ' ' = false := rfl

@[simp] theorem isWordC_amp : isWordC '&' = false := rfl

/-- Characters of the left part are digits, `' '` or `'&'`. -/
theorem enumLeft_mem (d1 d2 : Nat) :
    ∀ c ∈ enumLeft d1 d2, (∃ a, c = digitChar a) ∨ c = ' ' ∨ c = '&' := by
  intro c hc
  unfold enumLeft at hc
  simp only [List.append_assoc, List.mem_append, List.cons_append, List.nil_append,
    List.mem_cons] at hc
  rcases hc with h | h | h | h | h
  · rcases render2_shape d1 with hs | hs <;> rw [hs] at h <;> simp at h
    · exact Or.inl ⟨d1, h⟩
    · rcases h with rfl | rfl
      · exact Or.inl ⟨d1 / 10, rfl⟩
      · exact Or.inl ⟨d1 % 10, rfl⟩
  · exact Or.inr (Or.inl h)
  · exact Or.inr (Or.inr h)
  · exact Or.inr (Or.inl h)
  · rcases render2_shape d2 with hs | hs <;> rw [hs] at h <;> simp at h
    · exact Or.inl ⟨d2, h⟩
    · rcases h with rfl | rfl
      · exact Or.inl ⟨d2 / 10, rfl⟩
      · exact Or.inl ⟨d2 % 10, rfl⟩

theorem enumLeft_nodash (d1 d2 : Nat) : ∀ c ∈ enumLeft d1 d2, isDash c = false := by
  intro c hc
  rcases enumLeft_mem d1 d2 c hc with ⟨a, rfl⟩ | rfl | rfl
  · exact isDash_digitChar a
  · rfl
  · rfl

theorem rangeAfterFirst_none (a : List Char) (rem : List Char)
    (h : ∀ c ∈ rem, isDash c = false) : rangeAfterFirst a rem = none := by
  unfold rangeAfterFirst
  rcases hs : skipSp rem with _ | ⟨c, r⟩
  · rfl
  · have hsub : skipSp rem ⊆ rem := by
      unfold skipSp
      exact List.dropWhile_subset _
    have hc : c ∈ rem := hsub (hs ▸ List.mem_cons_self c r)
    dsimp only
    rw [h c hc]
    rfl

theorem tryRangeAt_none (cs : List Char) (h : ∀ c ∈ cs, isDash c = false) :
    tryRangeAt cs = none := by
  have hsplit : cs.takeWhile Char.isDigit ++ cs.dropWhile Char.isDigit = cs :=
    List.takeWhile_append_dropWhile Char.isDigit cs
  have hrun : ∀ c ∈ cs.takeWhile Char.isDigit, isDash c = false := fun c hc =>
    h c (hsplit ▸ List.mem_append_left _ hc)
  have hrest : ∀ c ∈ cs.dropWhile Char.isDigit, isDash c = false := fun c hc =>
    h c (hsplit ▸ List.mem_append_right _ hc)
  have hmix : ∀ (k : Nat) (c : Char),
      c ∈ (cs.takeWhile Char.isDigit).drop k ++ cs.dropWhile Char.isDigit →
      isDash c = false := by
    intro k c hc
    rcases List.mem_append.mp hc with h1 | h1
    · exact hrun c (List.drop_subset k _ h1)
    · exact hrest c h1
  unfold tryRangeAt
  dsimp only
  split
  · rfl
  · split
    · have e2 := rangeAfterFirst_none ((takeDigits cs).1.take 2)
        ((takeDigits cs).1.drop 2 ++ (takeDigits cs).2) (fun c hc => hmix 2 c hc)
      have e1 := rangeAfterFirst_none ((takeDigits cs).1.take 1)
        ((takeDigits cs).1.drop 1 ++ (takeDigits cs).2) (fun c hc => hmix 1 c hc)
      rw [e2, e1]
      rfl
    · exact rangeAfterFirst_none _ _ (fun c hc => hrest c hc)

theorem findRangesGo_nil : ∀ (fuel : Nat) (cs : List Char),
    (∀ c ∈ cs, isDash c = false) → findRangesGo fuel cs = []
  | 0, _, _ => by simp [findRangesGo]
  | _ + 1, [], _ => by simp [findRangesGo]
  | fuel + 1, c :: cs, h => by
    unfold findRangesGo
    rw [tryRangeAt_none (c :: cs) h]
    exact findRangesGo_nil fuel cs fun c' hc' => h c' (List.mem_cons_of_mem _ hc')

theorem findRanges_enumLeft (d1 d2 : Nat) : findRanges (enumLeft d1 d2) = [] :=
  findRangesGo_nil _ _ (enumLeft_nodash d1 d2)

/-! Walking `\b(\d{1,2})\b` over `D1 & D2`. -/

theorem findNumsGo_nil (fuel : Nat) (p : Bool) : findNumsGo fuel p [] = [] := by
  cases fuel <;> rfl

theorem findNumsGo_nonDigit (fuel : Nat) (p : Bool) (c : Char) (cs : List Char)
    (hd : c.isDigit = false) :
    findNumsGo (fuel + 1) p (c :: cs) = findNumsGo fuel (isWordC c) cs := by
  conv_lhs => unfold findNumsGo
  simp [hd]

/-- Reading one rendered number at a word boundary. -/
theorem findNumsGo_render2 (fuel n : Nat) (hn : n ≤ 99) (rest : List Char)
    (hrest : headNotDigit rest)
    (hword : ∀ c, rest.head? = some c → isWordC c = false) :
    findNumsGo (fuel + 1) false (render2 n ++ rest) = n :: findNumsGo fuel true rest := by
  by_cases hlt : n < 10
  · have hr : render2 n = [digitChar n] := by
      unfold render2
      rw [if_pos hlt]
    rw [hr, List.singleton_append]
    cases rest with
    | nil =>
      conv_lhs => unfold findNumsGo
      simp [digitsVal_one n (by omega)]
    | cons r t =>
      have hw : isWordC r = false := hword r rfl
      have hd : r.isDigit = false := hrest
      conv_lhs => unfold findNumsGo
      simp [hd, hw, digitsVal_one n (by omega)]
  · have hr : render2 n = [digitChar (n / 10), digitChar (n % 10)] := by
      unfold render2
      rw [if_neg hlt]
    have hval : 10 * (n / 10) + n % 10 = n := by omega
    rw [hr]
    simp only [List.cons_append, List.nil_append]
    cases rest with
    | nil =>
      conv_lhs => unfold findNumsGo
      simp [digitsVal_two (n / 10) (n % 10) (by omega) (by omega), hval]
    | cons r t =>
      have hw : isWordC r = false := hword r rfl
      have hd : r.isDigit = false := hrest
      conv_lhs => unfold findNumsGo
      simp [hd, hw, digitsVal_two (n / 10) (n % 10) (by omega) (by omega), hval]

theorem findNums_enumLeft (d1 d2 : Nat) (h1 : d1 ≤ 99) (h2 : d2 ≤ 99) :
    findNums (enumLeft d1 d2) = [d1, d2] := by
  have hlshape : enumLeft d1 d2 = render2 d1 ++ (' ' :: '&' :: ' ' :: render2 d2) := by
    unfold enumLeft
    simp [List.append_assoc]
  have key : ∀ fuel : Nat,
      findNumsGo (fuel + 5) false (render2 d1 ++ (' ' :: '&' :: ' ' :: render2 d2)) =
        [d1, d2] := by
    intro fuel
    have step1 : findNumsGo (fuel + 5) false
        (render2 d1 ++ (' ' :: '&' :: ' ' :: render2 d2)) =
        d1 :: findNumsGo (fuel + 4) true (' ' :: '&' :: ' ' :: render2 d2) :=
      findNumsGo_render2 (fuel + 4) d1 h1 _ (by unfold headNotDigit; rfl)
        (fun c hc => by cases hc; rfl)
    have step2 : findNumsGo (fuel + 4) true (' ' :: '&' :: ' ' :: render2 d2) =
        findNumsGo (fuel + 3) false ('&' :: ' ' :: render2 d2) :=
      findNumsGo_nonDigit (fuel + 3) true ' ' _ rfl
    have step3 : findNumsGo (fuel + 3) false ('&' :: ' ' :: render2 d2) =
        findNumsGo (fuel + 2) false (' ' :: render2 d2) :=
      findNumsGo_nonDigit (fuel + 2) false '&' _ rfl
    have step4 : findNumsGo (fuel + 2) false (' ' :: render2 d2) =
        findNumsGo (fuel + 1) false (render2 d2) :=
      findNumsGo_nonDigit (fuel + 1) false ' ' _ rfl
    have step5 : findNumsGo (fuel + 1) false (render2 d2 ++ []) =
        d2 :: findNumsGo fuel true [] :=
      findNumsGo_render2 fuel d2 h2 [] trivial (fun c hc => by cases hc)
    rw [step1, step2, step3, step4]
    conv_lhs => rw [← List.append_nil (render2 d2)]
    rw [step5, findNumsGo_nil]
  unfold findNums
  rw [hlshape]
  have hlen : (render2 d1 ++ (' ' :: '&' :: ' ' :: render2 d2)).length =
      ((render2 d1 ++ (' ' :: '&' :: ' ' :: render2 d2)).length - 5) + 5 := by
    have ha := render2_length d1
    have hb := render2_length d2
    simp only [List.length_append, List.length_cons]
    omega
  rw [hlen]
  exact key _

/-- `sorted(set([a, b]))` in closed form. -/
theorem sortedSet_pair (a b : Nat) :
    sortedSet [a, b] = if a = b then [b] else if a ≤ b then [a, b] else [b, a] := by
  unfold sortedSet sortAsc
  by_cases hab : a = b
  · subst hab
    rw [List.dedup_cons_of_mem (List.mem_singleton.mpr rfl)]
    simp [insertAsc]
  · rw [List.dedup_cons_of_not_mem (by simp [hab])]
    by_cases hle : a ≤ b <;> simp [insertAsc, hab, hle]

theorem sortedSet_pair_comm (a b : Nat) : sortedSet [a, b] = sortedSet [b, a] := by
  rw [sortedSet_pair, sortedSet_pair]
  rcases Nat.lt_trichotomy a b with h | h | h
  · rw [if_neg (by omega), if_pos (by omega), if_neg (by omega), if_neg (by omega)]
  · subst h
    simp
  · rw [if_neg (by omega), if_neg (by omega), if_neg (by omega), if_pos (by omega)]

theorem sortedSet_pair_ne_nil (a b : Nat) : (sortedSet [a, b]).isEmpty = false := by
  rw [sortedSet_pair]
  by_cases hab : a = b
  · rw [if_pos hab]
    rfl
  · rw [if_neg hab]
    by_cases hle : a ≤ b
    · rw [if_pos hle]
      rfl
    · rw [if_neg hle]
      rfl

/-- The `try date(...) except` fold is a filter-then-map. -/
theorem foldl_validity (y mo : Nat) : ∀ (l : List Nat) (init : List Date),
    l.foldl (fun acc dn => if dateValid y mo dn then acc ++ [Date.mk y mo dn] else acc)
        init =
      init ++ (l.filter fun dn => dateValid y mo dn).map fun dn => Date.mk y mo dn
  | [], init => by simp
  | dn :: l, init => by
    rw [List.foldl_cons, List.filter_cons]
    by_cases h : dateValid y mo dn = true
    · rw [if_pos h, if_pos h, foldl_validity y mo l (init ++ [Date.mk y mo dn])]
      simp
    · rw [if_neg h, if_neg h, foldl_validity y mo l init]

/-- The enumerated branch on the `D1 & D2` left part. -/
theorem enumBranch_enumLeft (d1 d2 mo y' : Nat) (h1 : d1 ≤ 99) (h2 : d2 ≤ 99) :
    enumBranch (enumLeft d1 d2) mo y' =
      (let ds := ((sortedSet [d1, d2]).filter fun dn => dateValid y' mo dn).map
          fun dn => Date.mk y' mo dn
       if ds.isEmpty then none else some ds) := by
  unfold enumBranch
  rw [findRanges_enumLeft d1 d2, findNums_enumLeft d1 d2 h1 h2]
  dsimp only
  rw [List.flatMap_nil, List.nil_append]
  rw [sortedSet_pair_ne_nil d1 d2, if_neg (by simp)]
  rw [foldl_validity y' mo (sortedSet [d1, d2]) []]
  rw [List.nil_append]

/-- **C10.** Every enumerated header of the form `D1 & D2/M/Y` (days and month
up to two digits, two-digit year meaning `2000 + Y`) parses to exactly the
date set the specification describes — the days `{D1, D2}` deduplicated and
sorted ascending with invalid days for that month dropped — and the result
does not depend on the order in which the two days appear. -/
theorem c10_enumerated_pair_header (d1 d2 mo y : Nat)
    (hd1 : d1 ≤ 99) (hd2 : d2 ≤ 99) (hmo : mo ≤ 99) (hy1 : 10 ≤ y) (hy2 : y ≤ 99) :
    parse_date_set_header (enumHeader d1 d2 mo y) = .ok (specEnumExpected d1 d2 mo y) ∧
    parse_date_set_header (enumHeader d1 d2 mo y) =
      parse_date_set_header (enumHeader d2 d1 mo y) := by
  have hfin : finishY y = y + 2000 := by
    unfold finishY
    rw [if_pos (by omega)]
  have main : ∀ a b, a ≤ 99 → b ≤ 99 →
      parse_date_set_header (enumHeader a b mo y) = .ok (specEnumExpected a b mo y) := by
    intro a b ha hb
    unfold parse_date_set_header
    dsimp only
    rw [stripWs_enumHeader a b mo y, parse_dmy_enum a b mo y]
    dsimp only
    rw [contigCore_enum a b mo y]
    dsimp only
    rw [multiSplit_enum a b mo y hmo hy1 hy2]
    dsimp only
    rw [stripWs_enumLeft a b, enumBranch_enumLeft a b mo (finishY y) ha hb, hfin]
    rfl
  refine ⟨main d1 d2 hd1 hd2, ?_⟩
  rw [main d1 d2 hd1 hd2, main d2 d1 hd2 hd1]
  unfold specEnumExpected
  rw [sortedSet_pair_comm d1 d2]

/-- Witness for C10: `"31 & 9/11/25"` — regardless of order the set is
{9 Nov 2025} with the invalid day 31 dropped, matching the spec's set. -/
theorem c10_enumerated_pair_header_witness :
    (parse_date_set_header (enumHeader 31 9 11 25) = .ok (specEnumExpected 31 9 11 25) ∧
      parse_date_set_header (enumHeader 31 9 11 25) =
        parse_date_set_header (enumHeader 9 31 11 25)) ∧
    specEnumExpected 31 9 11 25 = some [⟨2025, 11, 9⟩] :=
  ⟨c10_enumerated_pair_header 31 9 11 25 (by decide) (by decide) (by decide)
      (by decide) (by decide),
    by decide⟩

end Estepona
